import Mathlib

/-!
Shallow embedding of `src/ACpathfinder.py` (class `ACPathfinder`): a 3D grid
pathfinder routing air-conditioning pipes from a source cell `'S'` to room
cells `'R'` through empty cells `'.'`, around walls `'W'`, changing floors only
at stair cells `'T'`.  Floating-point energy costs are modelled over `ℚ`.
Positions are integer triples `(floor, row, col)`.
-/

abbrev Pos := Int × Int × Int

/-- The building grid: dimensions plus the cell symbol at each coordinate
(`building[f][r][c]` in the Python source; the function is total, but the code
only ever reads in-bounds coordinates). -/
structure Grid where
  floors : Nat
  rows : Nat
  cols : Nat
  cell : Pos → Char

/-- Bounds check `0 <= f < floors and 0 <= r < rows and 0 <= c < cols`. -/
def inBounds (g : Grid) (p : Pos) : Bool :=
  decide (0 ≤ p.1) && decide (p.1 < (g.floors : Int)) &&
  decide (0 ≤ p.2.1) && decide (p.2.1 < (g.rows : Int)) &&
  decide (0 ≤ p.2.2) && decide (p.2.2 < (g.cols : Int))

/-- `_is_valid_position`: in-bounds and not a wall. -/
def is_valid_position (g : Grid) (p : Pos) : Bool :=
  inBounds g p && decide (g.cell p ≠ 'W')

/-- All in-bounds positions in the scan order of the Python loops
(floor-major, then row, then column). -/
def allPositions (g : Grid) : List Pos :=
  (List.range g.floors).flatMap (fun f =>
    (List.range g.rows).flatMap (fun r =>
      (List.range g.cols).map (fun c : Nat => ((f : Int), (r : Int), (c : Int)))))

/-- `_find_position`: first position holding `sym`, in scan order. -/
def find_position (g : Grid) (sym : Char) : Option Pos :=
  (allPositions g).find? (fun p => g.cell p == sym)

/-- `_find_all_positions`: every position holding `sym`, in scan order. -/
def find_all_positions (g : Grid) (sym : Char) : List Pos :=
  (allPositions g).filter (fun p => g.cell p == sym)

/-- Energy cost constants from `self.energy_costs`. -/
def cost_horizontal : ℚ := 1

def cost_vertical_up : ℚ := 3

def cost_vertical_down : ℚ := 2

def cost_turn : ℚ := 1 / 2

def cost_base_pressure : ℚ := 1 / 10

/-- Direction vector from `a` to `b` (`(Δfloor, Δrow, Δcol)`). -/
def dirVec (a b : Pos) : Int × Int × Int :=
  (b.1 - a.1, b.2.1 - a.2.1, b.2.2 - a.2.2)

/-- `_is_turn`: the direction changes at the middle position. -/
def is_turn (p1 p2 p3 : Pos) : Bool :=
  decide (dirVec p1 p2 ≠ dirVec p2 p3)

/-- Movement cost of one step (vertical up / vertical down / horizontal),
with the floor comparison structured exactly as in the source. -/
def moveCost (a b : Pos) : ℚ :=
  if b.1 ≠ a.1 then (if a.1 < b.1 then cost_vertical_up else cost_vertical_down)
  else cost_horizontal

/-- Base pressure plus movement cost of one step. -/
def stepCost (a b : Pos) : ℚ :=
  cost_base_pressure + moveCost a b

/-- Cost of the steps after the first one: each adds `stepCost` plus the turn
surcharge computed against the previous direction. -/
def costAux : Pos → Pos → List Pos → ℚ
  | _, _, [] => 0
  | a, b, c :: rest =>
      stepCost b c + (if is_turn a b c then cost_turn else 0) + costAux b c rest

/-- `_calculate_energy_cost`: total energy of a path (0 when shorter than 2). -/
def calculate_energy_cost : List Pos → ℚ
  | [] => 0
  | [_] => 0
  | a :: b :: rest => stepCost a b + costAux a b rest

/-- Integer coordinates strictly between `a` and `b`, walked from the `a` side
(ascending when `a ≤ b`, descending otherwise), as produced by
`range(x1 + step, x2, step)` in the source. -/
def strictBetween (a b : Int) : List Int :=
  if a ≤ b then
    (List.range (b - a - 1).toNat).map (fun k : Nat => a + 1 + (k : Int))
  else
    (List.range (a - b - 1).toNat).map (fun k : Nat => a - 1 - (k : Int))

/-- One segment of `_expand_path`: the intermediate cells inserted between two
consecutive waypoints, followed by the destination waypoint. -/
def expandSeg (a b : Pos) : List Pos :=
  if a.1 ≠ b.1 then [b]
  else if a.2.2 = b.2.2 then
    (strictBetween a.2.1 b.2.1).map (fun r => (a.1, r, a.2.2)) ++ [b]
  else if a.2.1 = b.2.1 then
    (strictBetween a.2.2 b.2.2).map (fun c => (a.1, a.2.1, c)) ++ [b]
  else [b]

/-- The loop of `_expand_path` over consecutive waypoint pairs. -/
def expandPairs : Pos → List Pos → List Pos
  | _, [] => []
  | a, b :: rest => expandSeg a b ++ expandPairs b rest

/-- `_expand_path`: turn a sparse waypoint path into a dense cell-by-cell path. -/
def expand_path (p : List Pos) : List Pos :=
  match p with
  | [] => []
  | [a] => [a]
  | a :: rest => a :: expandPairs a rest

/-- One path record produced by `bfs_pathfinding` (the `path_info` dict). -/
structure PathResult where
  target_index : Nat
  target_position : Pos
  path : List Pos
  steps : Nat
  energy_cost : ℚ
deriving DecidableEq

/-- The neighbour candidates generated from a dequeued position, in the order
the Python loop visits them: the four horizontal moves (up, down, left, right)
filtered by `_is_valid_position`, then — only from a stair cell — the other
floors (ascending) whose identical (row, col) cell is also a stair. -/
def stepCandidates (g : Grid) (p : Pos) : List Pos :=
  ([(p.1, p.2.1 - 1, p.2.2), (p.1, p.2.1 + 1, p.2.2),
    (p.1, p.2.1, p.2.2 - 1), (p.1, p.2.1, p.2.2 + 1)].filter
      (fun q => is_valid_position g q)) ++
  (if g.cell p = 'T' then
      ((List.range g.floors).filter (fun nf : Nat =>
          decide ((nf : Int) ≠ p.1) &&
          decide (g.cell ((nf : Int), p.2.1, p.2.2) = 'T'))).map
        (fun nf : Nat => ((nf : Int), p.2.1, p.2.2))
    else [])

/-- Enqueue one candidate: skipped when already visited, otherwise marked
visited and appended to the queue with the grown path. -/
def bfsInsert (g : Grid) (path : List Pos)
    (st : List (Pos × List Pos) × List Pos) (cand : Pos) :
    List (Pos × List Pos) × List Pos :=
  if cand ∈ st.2 then st
  else (st.1 ++ [(cand, path ++ [cand])], cand :: st.2)

/-- The per-target BFS loop (`while queue:` in `bfs_pathfinding`), with an
explicit fuel parameter.  `none` means the fuel ran out; `some none` means the
queue emptied without reaching the target; `some (some path)` means the target
was dequeued with that path. -/
def bfsLoop (g : Grid) (target : Pos) :
    Nat → List (Pos × List Pos) → List Pos → Option (Option (List Pos))
  | 0, _, _ => none
  | _ + 1, [], _ => some none
  | fuel + 1, (p, path) :: rest, visited =>
      if p = target then some (some path)
      else
        let st := (stepCandidates g p).foldl (bfsInsert g path) (rest, visited)
        bfsLoop g target fuel st.1 st.2

/-- Number of grid cells; a strict bound on how many positions one search can
ever enqueue, hence (plus one) enough fuel for `bfsLoop`. -/
def gridSize (g : Grid) : Nat := g.floors * g.rows * g.cols

/-- One whole per-target search from `source`, starting from the singleton
queue and visited set of the Python code. -/
def bfsSearch (g : Grid) (source target : Pos) : Option (List Pos) :=
  match bfsLoop g target (gridSize g + 1) [(source, [source])] [source] with
  | some r => r
  | none => none

/-- The `for target_idx, target in enumerate(self.targets)` loop: reachable
targets contribute a `PathResult`, unreachable ones are skipped. -/
def searchTargets (g : Grid) (source : Pos) : Nat → List Pos → List PathResult
  | _, [] => []
  | idx, t :: ts =>
      match bfsSearch g source t with
      | some path =>
          ⟨idx, t, path, path.length, calculate_energy_cost path⟩ ::
            searchTargets g source (idx + 1) ts
      | none => searchTargets g source (idx + 1) ts

/-- `bfs_pathfinding`: empty when there is no source (an empty target list also
yields the empty result list), otherwise one BFS per target. -/
def bfs_pathfinding (g : Grid) : List PathResult :=
  match find_position g 'S' with
  | none => []
  | some source => searchTargets g source 0 (find_all_positions g 'R')

/-- `_can_go_direct`: same floor, same row or column, and no wall (nor
out-of-bounds cell) strictly between the two positions. -/
def can_go_direct (g : Grid) (p1 p2 : Pos) : Bool :=
  if p1.1 ≠ p2.1 then false
  else if p1.2.1 ≠ p2.2.1 ∧ p1.2.2 ≠ p2.2.2 then false
  else if p1.2.1 = p2.2.1 then
    ((strictBetween (min p1.2.2 p2.2.2) (max p1.2.2 p2.2.2)).map
        (fun c => (p1.1, p1.2.1, c))).all (fun q => is_valid_position g q)
  else
    ((strictBetween (min p1.2.1 p2.2.1) (max p1.2.1 p2.2.1)).map
        (fun r => (p1.1, r, p1.2.2))).all (fun q => is_valid_position g q)

/-- The cells `_can_go_direct` inspects: those strictly between its two
arguments along the shared row or column. -/
def betweenCells (p1 p2 : Pos) : List Pos :=
  if p1.2.1 = p2.2.1 then
    (strictBetween (min p1.2.2 p2.2.2) (max p1.2.2 p2.2.2)).map
      (fun c => (p1.1, p1.2.1, c))
  else
    (strictBetween (min p1.2.1 p2.2.1) (max p1.2.1 p2.2.1)).map
      (fun r => (p1.1, r, p1.2.2))

/-- The interior loop of `_optimize_path_turns`: `lastKept` is `optimized[-1]`,
`accRev` the kept waypoints in reverse, and the list carries each interior
waypoint with its successor. -/
def optGo (g : Grid) : Pos → List Pos → List (Pos × Pos) → List Pos
  | _, accRev, [] => accRev
  | lastKept, accRev, (curr, nxt) :: rest =>
      if can_go_direct g lastKept nxt then optGo g lastKept accRev rest
      else optGo g curr (curr :: accRev) rest

/-- `_optimize_path_turns`: greedily drop interior waypoints whose predecessor
kept waypoint reaches their successor directly; always keep both endpoints. -/
def optimize_path_turns (g : Grid) (path : List Pos) : List Pos :=
  if path.length ≤ 2 then path
  else
    match path with
    | [] => []
    | a :: rest =>
        (optGo g a [a] (rest.zip rest.tail)).reverse ++ [rest.getLastD a]

/-- A `PathResult` extended with the `energy_saved` key that
`optimize_energy_usage` adds. -/
structure OptResult where
  target_index : Nat
  target_position : Pos
  path : List Pos
  steps : Nat
  energy_cost : ℚ
  energy_saved : ℚ
deriving DecidableEq

/-- The body of the `optimize_energy_usage` loop for one `PathResult`. -/
def optimizeOne (g : Grid) (r : PathResult) : OptResult :=
  let opt := optimize_path_turns g r.path
  let optE := calculate_energy_cost opt
  if optE < r.energy_cost then
    ⟨r.target_index, r.target_position, opt, opt.length, optE,
      r.energy_cost - optE⟩
  else
    ⟨r.target_index, r.target_position, r.path, r.steps, r.energy_cost, 0⟩

/-- `optimize_energy_usage`: simplify each path and keep the cheaper version. -/
def optimize_energy_usage (g : Grid) (rs : List PathResult) : List OptResult :=
  rs.map (optimizeOne g)

/-- A legal move of the pathfinder as the specification describes it: a valid
(in-bounds, non-wall) horizontal neighbour step on the same floor, or a floor
change between two stair cells at the identical (row, col). -/
def ValidStep (g : Grid) (p q : Pos) : Prop :=
  (q.1 = p.1 ∧ is_valid_position g q = true ∧
    ((q.2.1 = p.2.1 - 1 ∧ q.2.2 = p.2.2) ∨
     (q.2.1 = p.2.1 + 1 ∧ q.2.2 = p.2.2) ∨
     (q.2.1 = p.2.1 ∧ q.2.2 = p.2.2 - 1) ∨
     (q.2.1 = p.2.1 ∧ q.2.2 = p.2.2 + 1))) ∨
  (q.1 ≠ p.1 ∧ q.2.1 = p.2.1 ∧ q.2.2 = p.2.2 ∧
    g.cell p = 'T' ∧ g.cell q = 'T')

instance (g : Grid) (p q : Pos) : Decidable (ValidStep g p q) := by
  unfold ValidStep
  infer_instance

/-- The specification's cost of the consecutive pair `(i-1, i)` of a path:
base pressure, plus vertical-up / vertical-down / horizontal by floor
comparison, plus the turn surcharge when `i ≥ 2` and the direction vector
changes. -/
def specPairCost (p : List Pos) (i : Nat) : ℚ :=
  let x := p.getD (i - 2) (0, 0, 0)
  let a := p.getD (i - 1) (0, 0, 0)
  let b := p.getD i (0, 0, 0)
  cost_base_pressure +
    (if a.1 < b.1 then cost_vertical_up
     else if b.1 < a.1 then cost_vertical_down
     else cost_horizontal) +
    (if 2 ≤ i ∧ dirVec x a ≠ dirVec a b then cost_turn else 0)

/-- The specification's energy formula: 0 for paths shorter than 2, otherwise
the sum of `specPairCost` over all consecutive pairs. -/
def specEnergyCost (p : List Pos) : ℚ :=
  if p.length < 2 then 0
  else ((List.range (p.length - 1)).map (fun j => specPairCost p (j + 1))).sum

/-- A waypoint pair that `_expand_path` leaves alone (contributes exactly the
destination).  Consecutive cells of a dense path are all of this shape. -/
def Atomic (a b : Pos) : Prop := expandSeg a b = [b]

/-- Invariant of one queue entry `(position, path)` of the BFS: the path runs
from the source to the entry's position through legal moves, repeats no
position, and stays inside the visited set. -/
def EntryOK (g : Grid) (source : Pos) (visited : List Pos)
    (e : Pos × List Pos) : Prop :=
  e.2.head? = some source ∧ e.2.getLast? = some e.1 ∧
    List.Chain' (ValidStep g) e.2 ∧ e.2.Nodup ∧ ∀ x ∈ e.2, x ∈ visited

/-- Invariant of the whole BFS state: the visited list repeats nothing, holds
only in-bounds positions, and every queue entry satisfies `EntryOK`. -/
def StateOK (g : Grid) (source : Pos) (queue : List (Pos × List Pos))
    (visited : List Pos) : Prop :=
  visited.Nodup ∧ (∀ x ∈ visited, inBounds g x = true) ∧
    ∀ e ∈ queue, EntryOK g source visited e

/-- The finite set of in-bounds positions, used to bound the visited list. -/
def boundedFinset (g : Grid) : Finset Pos :=
  (Finset.Icc 0 ((g.floors : Int) - 1)) ×ˢ
    ((Finset.Icc 0 ((g.rows : Int) - 1)) ×ˢ (Finset.Icc 0 ((g.cols : Int) - 1)))

/-- Cells of the scenario grid of the specification: one floor, 3×3, source at
(0,0,0), room at (0,0,2), walls across row 1. -/
def cellScenario (p : Pos) : Char :=
  if p = ((0 : Int), (0 : Int), (0 : Int)) then 'S'
  else if p = ((0 : Int), (0 : Int), (2 : Int)) then 'R'
  else if p.2.1 = 1 then 'W'
  else '.'

/-- The scenario grid of the specification (claim C5). -/
def gScenario : Grid := ⟨1, 3, 3, cellScenario⟩

/-- A grid with no source cell at all. -/
def gNoSource : Grid := ⟨1, 2, 2, fun _ => '.'⟩

/-- A grid whose second room is walled off: source at (0,0,0), reachable room
at (0,0,2), full wall across row 1, unreachable room at (0,2,2). -/
def cellWalled (p : Pos) : Char :=
  if p = ((0 : Int), (0 : Int), (0 : Int)) then 'S'
  else if p = ((0 : Int), (0 : Int), (2 : Int)) then 'R'
  else if p = ((0 : Int), (2 : Int), (2 : Int)) then 'R'
  else if p.2.1 = 1 then 'W'
  else '.'

/-- The two-room grid with one unreachable room (claim C8). -/
def gWalled : Grid := ⟨1, 3, 3, cellWalled⟩

/-- The source corner of the concrete grids. -/
def pSrc : Pos := (0, 0, 0)

/-- The reachable room of the concrete grids. -/
def pRoom : Pos := (0, 0, 2)

/-- The walled-off room of `gWalled`. -/
def pRoom2 : Pos := (0, 2, 2)

/-- The path the BFS discovers on the scenario grid. -/
def pathScenario : List Pos := [(0, 0, 0), (0, 0, 1), (0, 0, 2)]

/-- The single `PathResult` that `bfs_pathfinding` produces on `gScenario`. -/
def resScenario : PathResult := ⟨0, pRoom, pathScenario, 3, 11 / 5⟩

/-- The single `PathResult` that `bfs_pathfinding` produces on `gWalled`
(the walled-off second room contributes nothing). -/
def resWalled : PathResult := ⟨0, pRoom, pathScenario, 3, 11 / 5⟩

theorem mem_of_getLast?_eq_some {l : List Pos} {a : Pos}
    (h : l.getLast? = some a) : a ∈ l := by
  have h' : a ∈ l.getLast? := by simp [h]
  rcases List.mem_getLast?_eq_getLast h' with ⟨hne, heq⟩
  rw [heq]
  exact List.getLast_mem hne

theorem moveCost_spec (a b : Pos) :
    moveCost a b =
      (if a.1 < b.1 then cost_vertical_up
       else if b.1 < a.1 then cost_vertical_down
       else cost_horizontal) := by
  rcases lt_trichotomy a.1 b.1 with h | h | h
  · simp [moveCost, h, h.ne', h.asymm]
  · simp [moveCost, h]
  · simp [moveCost, h, h.ne, h.asymm]

theorem specPairCost_shift (a : Pos) (l : List Pos) (i : Nat) (h : 2 ≤ i) :
    specPairCost (a :: l) (i + 1) = specPairCost l i := by
  have h1 : i + 1 - 1 = (i - 1) + 1 := by omega
  have h2 : i + 1 - 2 = (i - 2) + 1 := by omega
  have h3 : 2 ≤ i + 1 := by omega
  simp only [specPairCost, h1, h2, List.getD_cons_succ, h, h3, true_and]

theorem costAux_spec : ∀ (rest : List Pos) (a b : Pos),
    costAux a b rest =
      ((List.range rest.length).map
        (fun j => specPairCost (a :: b :: rest) (j + 2))).sum := by
  intro rest
  induction rest with
  | nil => intro a b; simp [costAux]
  | cons c rest ih =>
      intro a b
      rw [List.length_cons, List.range_succ_eq_map]
      simp only [List.map_cons, List.sum_cons, List.map_map]
      have hmap : ∀ j ∈ List.range rest.length,
          ((fun j => specPairCost (a :: b :: c :: rest) (j + 2)) ∘ Nat.succ) j =
            (fun j => specPairCost (b :: c :: rest) (j + 2)) j := by
        intro j _
        have harith : j + 1 + 2 = (j + 2) + 1 := by omega
        simp only [Function.comp_apply, Nat.succ_eq_add_one, harith]
        exact specPairCost_shift a _ (j + 2) (by omega)
      rw [List.map_congr_left hmap, ← ih b c]
      have hpair : specPairCost (a :: b :: c :: rest) (0 + 2) =
          stepCost b c + (if is_turn a b c then cost_turn else 0) := by
        by_cases hd : dirVec a b = dirVec b c <;>
          simp [specPairCost, stepCost, moveCost_spec, is_turn, hd]
      rw [hpair]
      simp only [costAux]

theorem strictBetween_eq_nil {a b : Int} (h1 : b ≤ a + 1) (h2 : a ≤ b + 1) :
    strictBetween a b = [] := by
  unfold strictBetween
  by_cases h : a ≤ b
  · rw [if_pos h]
    have : (b - a - 1).toNat = 0 := Int.toNat_of_nonpos (by omega)
    rw [this]
    rfl
  · rw [if_neg h]
    have : (a - b - 1).toNat = 0 := Int.toNat_of_nonpos (by omega)
    rw [this]
    rfl

theorem atomic_of_floor_ne {a b : Pos} (h : a.1 ≠ b.1) : Atomic a b := by
  unfold Atomic expandSeg
  rw [if_pos h]

theorem atomic_row {a b : Pos} (hf : a.1 = b.1) (hc : a.2.2 = b.2.2)
    (h1 : b.2.1 ≤ a.2.1 + 1) (h2 : a.2.1 ≤ b.2.1 + 1) : Atomic a b := by
  unfold Atomic expandSeg
  rw [if_neg (by simp [hf]), if_pos hc, strictBetween_eq_nil h1 h2]
  rfl

theorem atomic_col {a b : Pos} (hf : a.1 = b.1) (hc : a.2.2 ≠ b.2.2)
    (hr : a.2.1 = b.2.1) (h1 : b.2.2 ≤ a.2.2 + 1) (h2 : a.2.2 ≤ b.2.2 + 1) :
    Atomic a b := by
  unfold Atomic expandSeg
  rw [if_neg (by simp [hf]), if_neg hc, if_pos hr, strictBetween_eq_nil h1 h2]
  rfl

theorem atomic_diag {a b : Pos} (hf : a.1 = b.1) (hc : a.2.2 ≠ b.2.2)
    (hr : a.2.1 ≠ b.2.1) : Atomic a b := by
  unfold Atomic expandSeg
  rw [if_neg (by simp [hf]), if_neg hc, if_neg hr]

theorem chain_ray (e : Int → Pos)
    (he : ∀ x d : Int, d = 1 ∨ d = -1 → Atomic (e x) (e (x + d))) :
    ∀ (n : Nat) (r d : Int), (d = 1 ∨ d = -1) →
      List.Chain' Atomic
        (e r :: ((List.range n).map (fun k : Nat => e (r + d * (1 + (k : Int)))) ++
          [e (r + d * ((n : Int) + 1))]) ) := by
  intro n
  induction n with
  | zero =>
      intro r d hd
      simp only [List.range_zero, List.map_nil, List.nil_append, Nat.cast_zero,
        zero_add, mul_one]
      exact List.chain'_pair.mpr (he r d hd)
  | succ n ih =>
      intro r d hd
      rw [List.range_succ_eq_map]
      simp only [List.map_cons, List.map_map, List.cons_append, Nat.cast_zero,
        add_zero, mul_one]
      have hmap : ∀ k ∈ List.range n,
          ((fun k : Nat => e (r + d * (1 + (k : Int)))) ∘ Nat.succ) k =
            (fun k : Nat => e ((r + d) + d * (1 + (k : Int)))) k := by
        intro k _
        have h2 : r + d * (1 + ((k : Int) + 1)) = (r + d) + d * (1 + (k : Int)) := by
          ring
        simp only [Function.comp_apply, Nat.succ_eq_add_one, Nat.cast_add,
          Nat.cast_one, h2]
      have hend : r + d * ((((n : Int)) + 1) + 1) = (r + d) + d * ((n : Int) + 1) := by
        ring
      rw [List.map_congr_left hmap]
      simp only [Nat.cast_add, Nat.cast_one, hend]
      exact List.chain'_cons.mpr ⟨he r d hd, ih (r + d) d hd⟩

theorem chain_seg (e : Int → Pos)
    (he : ∀ x d : Int, d = 1 ∨ d = -1 → Atomic (e x) (e (x + d)))
    (he0 : ∀ x : Int, Atomic (e x) (e x)) (x1 x2 : Int) :
    List.Chain' Atomic (e x1 :: ((strictBetween x1 x2).map e ++ [e x2])) := by
  rcases lt_trichotomy x1 x2 with h | h | h
  · have hsb : strictBetween x1 x2 =
        (List.range (x2 - x1 - 1).toNat).map (fun k : Nat => x1 + 1 + (k : Int)) := by
      unfold strictBetween
      rw [if_pos (le_of_lt h)]
    rw [hsb, List.map_map]
    have hmap : ∀ k ∈ List.range (x2 - x1 - 1).toNat,
        (e ∘ fun k : Nat => x1 + 1 + (k : Int)) k =
          (fun k : Nat => e (x1 + 1 * (1 + (k : Int)))) k := by
      intro k _
      have h2 : x1 + 1 + (k : Int) = x1 + 1 * (1 + (k : Int)) := by ring
      simp only [Function.comp_apply, h2]
    rw [List.map_congr_left hmap]
    have hend : e x2 = e (x1 + 1 * (((x2 - x1 - 1).toNat : Int) + 1)) := by
      congr 1
      omega
    rw [hend]
    exact chain_ray e he (x2 - x1 - 1).toNat x1 1 (Or.inl rfl)
  · subst h
    rw [strictBetween_eq_nil (by omega) (by omega)]
    exact List.chain'_pair.mpr (he0 x1)
  · have hsb : strictBetween x1 x2 =
        (List.range (x1 - x2 - 1).toNat).map (fun k : Nat => x1 - 1 - (k : Int)) := by
      unfold strictBetween
      rw [if_neg (by omega)]
    rw [hsb, List.map_map]
    have hmap : ∀ k ∈ List.range (x1 - x2 - 1).toNat,
        (e ∘ fun k : Nat => x1 - 1 - (k : Int)) k =
          (fun k : Nat => e (x1 + (-1) * (1 + (k : Int)))) k := by
      intro k _
      have h2 : x1 - 1 - (k : Int) = x1 + (-1) * (1 + (k : Int)) := by ring
      simp only [Function.comp_apply, h2]
    rw [List.map_congr_left hmap]
    have hend : e x2 = e (x1 + (-1) * (((x1 - x2 - 1).toNat : Int) + 1)) := by
      congr 1
      omega
    rw [hend]
    exact chain_ray e he (x1 - x2 - 1).toNat x1 (-1) (Or.inr rfl)

theorem chain'_atomic_expandSeg (a b : Pos) :
    List.Chain' Atomic (a :: expandSeg a b) := by
  by_cases hf : a.1 = b.1
  · by_cases hc : a.2.2 = b.2.2
    · -- same column: walk along the rows
      have hb : b = (a.1, b.2.1, a.2.2) := by
        rcases b with ⟨b1, b2, b3⟩
        simp_all
      have hseg : expandSeg a b =
          (strictBetween a.2.1 b.2.1).map (fun r => ((a.1, r, a.2.2) : Pos)) ++ [b] := by
        unfold expandSeg
        rw [if_neg (by simp [hf]), if_pos hc]
      have he : ∀ x d : Int, d = 1 ∨ d = -1 →
          Atomic ((a.1, x, a.2.2) : Pos) ((a.1, x + d, a.2.2) : Pos) := by
        intro x d hd
        refine atomic_row rfl rfl ?_ ?_ <;>
          (dsimp only; rcases hd with rfl | rfl <;> omega)
      have he0 : ∀ x : Int, Atomic ((a.1, x, a.2.2) : Pos) ((a.1, x, a.2.2) : Pos) := by
        intro x
        refine atomic_row rfl rfl ?_ ?_ <;> (dsimp only; omega)
      have := chain_seg (fun x => ((a.1, x, a.2.2) : Pos)) he he0 a.2.1 b.2.1
      rw [hseg]
      have ha : a = ((a.1, a.2.1, a.2.2) : Pos) := rfl
      rw [ha, hb]
      exact this
    · by_cases hr : a.2.1 = b.2.1
      · -- same row: walk along the columns
        have hb : b = (a.1, a.2.1, b.2.2) := by
          rcases b with ⟨b1, b2, b3⟩
          simp_all
        have hseg : expandSeg a b =
            (strictBetween a.2.2 b.2.2).map (fun c => ((a.1, a.2.1, c) : Pos)) ++ [b] := by
          unfold expandSeg
          rw [if_neg (by simp [hf]), if_neg hc, if_pos hr]
        have he : ∀ x d : Int, d = 1 ∨ d = -1 →
            Atomic ((a.1, a.2.1, x) : Pos) ((a.1, a.2.1, x + d) : Pos) := by
          intro x d hd
          refine atomic_col rfl ?_ rfl ?_ ?_ <;>
            (dsimp only; rcases hd with rfl | rfl <;> omega)
        have he0 : ∀ x : Int,
            Atomic ((a.1, a.2.1, x) : Pos) ((a.1, a.2.1, x) : Pos) := by
          intro x
          refine atomic_row rfl rfl ?_ ?_ <;> (dsimp only; omega)
        have := chain_seg (fun x => ((a.1, a.2.1, x) : Pos)) he he0 a.2.2 b.2.2
        rw [hseg]
        have ha : a = ((a.1, a.2.1, a.2.2) : Pos) := rfl
        rw [ha, hb]
        exact this
      · -- diagonal pair: expansion appends only the destination
        rw [show expandSeg a b = [b] from atomic_diag hf hc hr]
        exact List.chain'_pair.mpr (atomic_diag hf hc hr)
  · rw [show expandSeg a b = [b] from atomic_of_floor_ne hf]
    exact List.chain'_pair.mpr (atomic_of_floor_ne hf)

theorem expandSeg_ne_nil (a b : Pos) : expandSeg a b ≠ [] := by
  unfold expandSeg
  split
  · simp
  · split
    · simp
    · split <;> simp

theorem expandSeg_getLast? (a b : Pos) : (expandSeg a b).getLast? = some b := by
  unfold expandSeg
  split
  · rfl
  · split
    · exact List.getLast?_concat _
    · split
      · exact List.getLast?_concat _
      · rfl

theorem expandPairs_ne_nil (a b : Pos) (rest : List Pos) :
    expandPairs a (b :: rest) ≠ [] := by
  simp only [expandPairs]
  intro h
  rcases List.append_eq_nil.mp h with ⟨h1, _⟩
  exact expandSeg_ne_nil a b h1

theorem chain'_atomic_expandPairs :
    ∀ (rest : List Pos) (a : Pos),
      List.Chain' Atomic (a :: expandPairs a rest) := by
  intro rest
  induction rest with
  | nil => intro a; exact List.chain'_singleton a
  | cons b rest ih =>
      intro a
      have hshape : a :: expandPairs a (b :: rest) =
          (a :: expandSeg a b) ++ expandPairs b rest := by
        simp [expandPairs]
      rw [hshape]
      refine List.Chain'.append (chain'_atomic_expandSeg a b)
        (List.chain'_cons'.mp (ih b)).2 ?_
      intro x hx y hy
      have hx1 : (a :: expandSeg a b).getLast? = some b := by
        rw [show a :: expandSeg a b = [a] ++ expandSeg a b by simp,
          List.getLast?_append_of_ne_nil _ (expandSeg_ne_nil a b)]
        exact expandSeg_getLast? a b
      rw [hx1] at hx
      cases hx
      exact (List.chain'_cons'.mp (ih b)).1 y hy

theorem expandPairs_of_chain :
    ∀ (rest : List Pos) (a : Pos),
      List.Chain' Atomic (a :: rest) → expandPairs a rest = rest := by
  intro rest
  induction rest with
  | nil => intro a _; rfl
  | cons b rest ih =>
      intro a h
      rcases List.chain'_cons.mp h with ⟨hab, hrest⟩
      simp only [expandPairs]
      rw [hab, ih b hrest]
      rfl

theorem expand_path_dense (p : List Pos) :
    List.Chain' Atomic (expand_path p) := by
  match p with
  | [] => exact List.chain'_nil
  | [a] => exact List.chain'_singleton a
  | a :: b :: rest => exact chain'_atomic_expandPairs (b :: rest) a

theorem expand_path_of_chain (p : List Pos) (h : List.Chain' Atomic p) :
    expand_path p = p := by
  match p with
  | [] => rfl
  | [a] => rfl
  | a :: b :: rest =>
      show a :: expandPairs a (b :: rest) = a :: b :: rest
      rw [expandPairs_of_chain (b :: rest) a h]

theorem expandPairs_getLast? :
    ∀ (rest : List Pos) (a : Pos), rest ≠ [] →
      (expandPairs a rest).getLast? = rest.getLast? := by
  intro rest
  induction rest with
  | nil => intro a h; exact absurd rfl h
  | cons b rest ih =>
      intro a _
      match rest with
      | [] =>
          simp only [expandPairs, List.append_nil]
          exact expandSeg_getLast? a b
      | c :: rest' =>
          rw [show expandPairs a (b :: c :: rest') =
            expandSeg a b ++ expandPairs b (c :: rest') from rfl]
          rw [List.getLast?_append_of_ne_nil _ (expandPairs_ne_nil b c rest')]
          rw [ih b (by simp), List.getLast?_cons_cons]

/-- Claim C6: `_expand_path` preserves the first and last path elements and is
idempotent: expanding an already-expanded path changes nothing; in particular
it is the identity on dense paths. -/
theorem C6_expand_path_endpoints_idempotent :
    ∀ p : List Pos,
      (expand_path p).head? = p.head? ∧
      (expand_path p).getLast? = p.getLast? ∧
      expand_path (expand_path p) = expand_path p := by
  intro p
  refine ⟨?_, ?_, expand_path_of_chain _ (expand_path_dense p)⟩
  · match p with
    | [] => rfl
    | [a] => rfl
    | a :: b :: rest => rfl
  · match p with
    | [] => rfl
    | [a] => rfl
    | a :: b :: rest =>
        show (a :: expandPairs a (b :: rest)).getLast? = (a :: b :: rest).getLast?
        rw [show a :: expandPairs a (b :: rest) =
          [a] ++ expandPairs a (b :: rest) by simp]
        rw [List.getLast?_append_of_ne_nil _ (expandPairs_ne_nil a b rest)]
        rw [expandPairs_getLast? (b :: rest) a (by simp), List.getLast?_cons_cons]

/-- Claim C2: `_calculate_energy_cost` returns 0 on paths shorter than 2, and
otherwise equals the specification's sum over consecutive pairs of base
pressure plus vertical-up / vertical-down / horizontal movement cost plus the
turn surcharge for steps `i ≥ 2` whose direction vector changes. -/
theorem C2_energy_cost_formula :
    (∀ p : List Pos, p.length < 2 → calculate_energy_cost p = 0) ∧
      ∀ p : List Pos, calculate_energy_cost p = specEnergyCost p := by
  constructor
  · intro p h
    match p with
    | [] => rfl
    | [_] => rfl
    | _ :: _ :: _ => simp at h; omega
  · intro p
    match p with
    | [] => rfl
    | [_] => rfl
    | a :: b :: rest =>
        have hlen : ¬ (a :: b :: rest).length < 2 := by simp
        rw [specEnergyCost, if_neg hlen]
        have hlen2 : (a :: b :: rest).length - 1 = rest.length + 1 := by simp
        rw [hlen2, List.range_succ_eq_map]
        simp only [List.map_cons, List.sum_cons, List.map_map]
        have hmap : ∀ j ∈ List.range rest.length,
            ((fun j => specPairCost (a :: b :: rest) (j + 1)) ∘ Nat.succ) j =
              (fun j => specPairCost (a :: b :: rest) (j + 2)) j := by
          intro j _
          have harith : j + 1 + 1 = j + 2 := by omega
          simp only [Function.comp_apply, Nat.succ_eq_add_one, harith]
        rw [List.map_congr_left hmap, ← costAux_spec]
        have hpair : specPairCost (a :: b :: rest) (0 + 1) = stepCost a b := by
          simp [specPairCost, stepCost, moveCost_spec]
        rw [hpair]
        rfl

theorem mem_allPositions (g : Grid) (p : Pos) :
    p ∈ allPositions g ↔ inBounds g p = true := by
  constructor
  · intro h
    simp only [allPositions, List.mem_flatMap, List.mem_map,
      List.mem_range] at h
    rcases h with ⟨f, hf, r, hr, c, hc, rfl⟩
    simp only [inBounds, Bool.and_eq_true, decide_eq_true_eq]
    omega
  · intro h
    rcases p with ⟨pf, pr, pc⟩
    simp only [inBounds, Bool.and_eq_true, decide_eq_true_eq] at h
    simp only [allPositions, List.mem_flatMap, List.mem_map, List.mem_range]
    refine ⟨pf.toNat, by omega, pr.toNat, by omega, pc.toNat, by omega, ?_⟩
    simp only [Prod.mk.injEq]
    omega

theorem find_position_sound {g : Grid} {sym : Char} {p : Pos}
    (h : find_position g sym = some p) :
    inBounds g p = true ∧ g.cell p = sym := by
  unfold find_position at h
  have h1 := List.find?_some h
  have h2 := List.mem_of_find?_eq_some h
  exact ⟨(mem_allPositions g p).mp h2, by simpa using h1⟩

theorem mem_boundedFinset (g : Grid) (p : Pos) :
    p ∈ boundedFinset g ↔ inBounds g p = true := by
  rcases p with ⟨pf, pr, pc⟩
  simp only [boundedFinset, Finset.mem_product, Finset.mem_Icc, inBounds,
    Bool.and_eq_true, decide_eq_true_eq]
  omega

theorem card_boundedFinset (g : Grid) :
    (boundedFinset g).card = gridSize g := by
  have h1 : ∀ n : Nat, ((n : Int) - 1 + 1 - 0).toNat = n := by
    intro n
    omega
  simp [boundedFinset, Finset.card_product, Int.card_Icc, gridSize, h1,
    mul_assoc]

theorem length_le_gridSize {g : Grid} {v : List Pos} (h1 : v.Nodup)
    (h2 : ∀ x ∈ v, inBounds g x = true) : v.length ≤ gridSize g := by
  have hsub : v.toFinset ⊆ boundedFinset g := by
    intro x hx
    rw [mem_boundedFinset]
    exact h2 x (List.mem_toFinset.mp hx)
  have hcard := Finset.card_le_card hsub
  rw [List.toFinset_card_of_nodup h1, card_boundedFinset] at hcard
  exact hcard

theorem stepCandidates_sound {g : Grid} {p : Pos} (hp : inBounds g p = true) :
    ∀ c ∈ stepCandidates g p, ValidStep g p c ∧ inBounds g c = true := by
  intro c hc
  unfold stepCandidates at hc
  rcases List.mem_append.mp hc with hh | hv
  · rcases List.mem_filter.mp hh with ⟨hmem, hvalid⟩
    have hib : inBounds g c = true := by
      have h' := hvalid
      unfold is_valid_position at h'
      rw [Bool.and_eq_true] at h'
      exact h'.1
    refine ⟨Or.inl ⟨?_, hvalid, ?_⟩, hib⟩
    · simp only [List.mem_cons, List.not_mem_nil, or_false] at hmem
      rcases hmem with rfl | rfl | rfl | rfl <;> rfl
    · simp only [List.mem_cons, List.not_mem_nil, or_false] at hmem
      rcases hmem with rfl | rfl | rfl | rfl
      · exact Or.inl ⟨rfl, rfl⟩
      · exact Or.inr (Or.inl ⟨rfl, rfl⟩)
      · exact Or.inr (Or.inr (Or.inl ⟨rfl, rfl⟩))
      · exact Or.inr (Or.inr (Or.inr ⟨rfl, rfl⟩))
  · by_cases hT : g.cell p = 'T'
    · rw [if_pos hT] at hv
      rcases List.mem_map.mp hv with ⟨nf, hnf, rfl⟩
      rcases List.mem_filter.mp hnf with ⟨hnfr, hcond⟩
      simp only [Bool.and_eq_true, decide_eq_true_eq] at hcond
      obtain ⟨hne, hT2⟩ := hcond
      have hfr : nf < g.floors := List.mem_range.mp hnfr
      constructor
      · exact Or.inr ⟨hne, rfl, rfl, hT, hT2⟩
      · simp only [inBounds, Bool.and_eq_true, decide_eq_true_eq] at hp ⊢
        omega
    · rw [if_neg hT] at hv
      simp at hv

theorem EntryOK_mono {g : Grid} {source : Pos} {v v' : List Pos}
    (hsub : ∀ x ∈ v, x ∈ v') {e : Pos × List Pos}
    (h : EntryOK g source v e) : EntryOK g source v' e := by
  obtain ⟨h1, h2, h3, h4, h5⟩ := h
  exact ⟨h1, h2, h3, h4, fun x hx => hsub x (h5 x hx)⟩

theorem foldl_bfsInsert_ok (g : Grid) (source p : Pos) (pa : List Pos) :
    ∀ (cands : List Pos) (q : List (Pos × List Pos)) (v : List Pos),
      (∀ c ∈ cands, ValidStep g p c ∧ inBounds g c = true) →
      v.Nodup → (∀ x ∈ v, inBounds g x = true) →
      (∀ e ∈ q, EntryOK g source v e) →
      EntryOK g source v (p, pa) →
      (cands.foldl (bfsInsert g pa) (q, v)).2.Nodup ∧
      (∀ x ∈ (cands.foldl (bfsInsert g pa) (q, v)).2, inBounds g x = true) ∧
      (∀ e ∈ (cands.foldl (bfsInsert g pa) (q, v)).1,
        EntryOK g source (cands.foldl (bfsInsert g pa) (q, v)).2 e) ∧
      (cands.foldl (bfsInsert g pa) (q, v)).1.length + v.length =
        q.length + (cands.foldl (bfsInsert g pa) (q, v)).2.length ∧
      (∀ x ∈ v, x ∈ (cands.foldl (bfsInsert g pa) (q, v)).2) ∧
      EntryOK g source (cands.foldl (bfsInsert g pa) (q, v)).2 (p, pa) := by
  intro cands
  induction cands with
  | nil =>
      intro q v _ hnd hib hq hpa
      exact ⟨hnd, hib, hq, by simp, fun x hx => hx, hpa⟩
  | cons c cs ih =>
      intro q v hcands hnd hib hq hpa
      have hc := hcands c (by simp)
      have hcs : ∀ x ∈ cs, ValidStep g p x ∧ inBounds g x = true := by
        intro x hx
        exact hcands x (by simp [hx])
      rw [List.foldl_cons]
      by_cases hvis : c ∈ v
      · rw [show bfsInsert g pa (q, v) c = (q, v) by simp [bfsInsert, hvis]]
        exact ih q v hcs hnd hib hq hpa
      · rw [show bfsInsert g pa (q, v) c =
            (q ++ [(c, pa ++ [c])], c :: v) by simp [bfsInsert, hvis]]
        have hnd' : (c :: v).Nodup := by
          simp [List.nodup_cons, hvis, hnd]
        have hib' : ∀ x ∈ c :: v, inBounds g x = true := by
          intro x hx
          rcases List.mem_cons.mp hx with rfl | hx
          · exact hc.2
          · exact hib x hx
        have hsub : ∀ x ∈ v, x ∈ c :: v := fun x hx => List.mem_cons_of_mem c hx
        have hq' : ∀ e ∈ q ++ [(c, pa ++ [c])], EntryOK g source (c :: v) e := by
          intro e he
          rcases List.mem_append.mp he with he | he
          · exact EntryOK_mono hsub (hq e he)
          · rw [List.mem_singleton] at he
            subst he
            obtain ⟨hh, hl, hch, hnd2, hsubv⟩ := hpa
            have hpane : pa ≠ [] := by
              intro hnil
              rw [hnil] at hh
              simp at hh
            refine ⟨?_, ?_, ?_, ?_, ?_⟩
            · rw [show (((c, pa ++ [c]) : Pos × List Pos)).2 = pa ++ [c] from rfl,
                List.head?_append_of_ne_nil _ hpane]
              exact hh
            · exact List.getLast?_concat _
            · refine List.Chain'.append hch (List.chain'_singleton c) ?_
              intro x hx y hy
              rw [hl] at hx
              simp only [Option.mem_def, Option.some.injEq] at hx
              simp only [List.head?_cons, Option.mem_def, Option.some.injEq] at hy
              subst hx
              subst hy
              exact hc.1
            · rw [show (((c, pa ++ [c]) : Pos × List Pos)).2 = pa ++ [c] from rfl,
                List.nodup_append]
              refine ⟨hnd2, List.nodup_singleton c, ?_⟩
              intro x hx hxc
              rw [List.mem_singleton] at hxc
              subst hxc
              exact hvis (hsubv x hx)
            · intro x hx
              rcases List.mem_append.mp hx with hx | hx
              · exact List.mem_cons_of_mem c (hsubv x hx)
              · rw [List.mem_singleton] at hx
                rw [hx]
                exact List.mem_cons_self c v
        have hpa' : EntryOK g source (c :: v) (p, pa) := EntryOK_mono hsub hpa
        obtain ⟨a1, a2, a3, a4, a5, a6⟩ :=
          ih (q ++ [(c, pa ++ [c])]) (c :: v) hcs hnd' hib' hq' hpa'
        refine ⟨a1, a2, a3, ?_, fun x hx => a5 x (hsub x hx), a6⟩
        have hq1 : (q ++ [(c, pa ++ [c])]).length = q.length + 1 := by simp
        have hv1 : (c :: v).length = v.length + 1 := by simp
        rw [hq1, hv1] at a4
        omega

theorem initialStateOK {g : Grid} {source : Pos}
    (hsrc : inBounds g source = true) :
    StateOK g source [(source, [source])] [source] := by
  refine ⟨List.nodup_singleton _, ?_, ?_⟩
  · intro x hx
    rw [List.mem_singleton] at hx
    subst hx
    exact hsrc
  · intro e he
    rw [List.mem_singleton] at he
    subst he
    exact ⟨rfl, by simp, List.chain'_singleton _, List.nodup_singleton _,
      fun x hx => hx⟩

theorem bfsLoop_sound (g : Grid) (source target : Pos) :
    ∀ (fuel : Nat) (q : List (Pos × List Pos)) (v : List Pos) (res : List Pos),
      StateOK g source q v →
      bfsLoop g target fuel q v = some (some res) →
      res.head? = some source ∧ res.getLast? = some target ∧
        List.Chain' (ValidStep g) res ∧ res.Nodup := by
  intro fuel
  induction fuel with
  | zero =>
      intro q v res _ h
      simp [bfsLoop] at h
  | succ fuel ih =>
      intro q v res hst h
      match q with
      | [] => simp [bfsLoop] at h
      | (p, pa) :: rest =>
          obtain ⟨hnd, hib, hq⟩ := hst
          have hpa := hq (p, pa) (by simp)
          by_cases hpt : p = target
          · rw [bfsLoop, if_pos hpt] at h
            have hres : pa = res := by simpa using h
            subst hres
            obtain ⟨h1, h2, h3, h4, _⟩ := hpa
            rw [hpt] at h2
            exact ⟨h1, h2, h3, h4⟩
          · rw [bfsLoop, if_neg hpt] at h
            have hpin : inBounds g p = true := by
              obtain ⟨_, h2, _, _, h5⟩ := hpa
              exact hib p (h5 p (mem_of_getLast?_eq_some h2))
            have hrest : ∀ e ∈ rest, EntryOK g source v e := by
              intro e he
              exact hq e (by simp [he])
            obtain ⟨a1, a2, a3, _, _, _⟩ :=
              foldl_bfsInsert_ok g source p pa (stepCandidates g p) rest v
                (fun c hc => stepCandidates_sound hpin c hc) hnd hib hrest hpa
            exact ih _ _ res ⟨a1, a2, a3⟩ h

theorem bfsLoop_total (g : Grid) (source target : Pos) :
    ∀ (fuel : Nat) (q : List (Pos × List Pos)) (v : List Pos),
      StateOK g source q v →
      q.length + (gridSize g - v.length) < fuel →
      bfsLoop g target fuel q v ≠ none := by
  intro fuel
  induction fuel with
  | zero =>
      intro q v _ hmeas
      omega
  | succ fuel ih =>
      intro q v hst hmeas
      match q with
      | [] => simp [bfsLoop]
      | (p, pa) :: rest =>
          by_cases hpt : p = target
          · rw [bfsLoop, if_pos hpt]
            simp
          · rw [bfsLoop, if_neg hpt]
            obtain ⟨hnd, hib, hq⟩ := hst
            have hpa := hq (p, pa) (by simp)
            have hpin : inBounds g p = true := by
              obtain ⟨_, h2, _, _, h5⟩ := hpa
              exact hib p (h5 p (mem_of_getLast?_eq_some h2))
            have hrest : ∀ e ∈ rest, EntryOK g source v e := by
              intro e he
              exact hq e (by simp [he])
            obtain ⟨a1, a2, a3, a4, a5, _⟩ :=
              foldl_bfsInsert_ok g source p pa (stepCandidates g p) rest v
                (fun c hc => stepCandidates_sound hpin c hc) hnd hib hrest hpa
            apply ih _ _ ⟨a1, a2, a3⟩
            have hbound := length_le_gridSize a1 a2
            have hvlen : v.length ≤
                ((stepCandidates g p).foldl (bfsInsert g pa) (rest, v)).2.length :=
              List.Subperm.length_le
                (List.subperm_of_subset hnd (fun x hx => a5 x hx))
            have hql : ((p, pa) :: rest).length = rest.length + 1 := by simp
            rw [hql] at hmeas
            omega

theorem searchTargets_sound (g : Grid) (source : Pos) :
    ∀ (ts : List Pos) (idx : Nat) (res : PathResult),
      res ∈ searchTargets g source idx ts →
      bfsSearch g source res.target_position = some res.path ∧
        res.steps = res.path.length ∧
        res.energy_cost = calculate_energy_cost res.path ∧
        idx ≤ res.target_index := by
  intro ts
  induction ts with
  | nil =>
      intro idx res h
      simp [searchTargets] at h
  | cons t ts ih =>
      intro idx res h
      cases hsearch : bfsSearch g source t with
      | some path =>
          rw [searchTargets, hsearch] at h
          rcases List.mem_cons.mp h with rfl | h
          · exact ⟨hsearch, rfl, rfl, le_refl _⟩
          · obtain ⟨b1, b2, b3, b4⟩ := ih (idx + 1) res h
            exact ⟨b1, b2, b3, by omega⟩
      | none =>
          rw [searchTargets, hsearch] at h
          obtain ⟨b1, b2, b3, b4⟩ := ih (idx + 1) res h
          exact ⟨b1, b2, b3, by omega⟩

theorem bfs_result_sound (g : Grid) (res : PathResult)
    (h : res ∈ bfs_pathfinding g) :
    ∃ source, find_position g 'S' = some source ∧
      res.path.head? = some source ∧
      res.path.getLast? = some res.target_position ∧
      List.Chain' (ValidStep g) res.path ∧
      res.path.Nodup ∧
      res.energy_cost = calculate_energy_cost res.path ∧
      res.steps = res.path.length := by
  cases hfind : find_position g 'S' with
  | none =>
      have hempty : bfs_pathfinding g = [] := by
        unfold bfs_pathfinding
        rw [hfind]
      rw [hempty] at h
      simp at h
  | some source =>
      have hmem : res ∈ searchTargets g source 0 (find_all_positions g 'R') := by
        have heq : bfs_pathfinding g =
            searchTargets g source 0 (find_all_positions g 'R') := by
          unfold bfs_pathfinding
          rw [hfind]
        rwa [heq] at h
      obtain ⟨hsearch, hsteps, hcost, _⟩ :=
        searchTargets_sound g source _ 0 res hmem
      have hloop : bfsLoop g res.target_position (gridSize g + 1)
          [(source, [source])] [source] = some (some res.path) := by
        unfold bfsSearch at hsearch
        cases hl : bfsLoop g res.target_position (gridSize g + 1)
            [(source, [source])] [source] with
        | none => rw [hl] at hsearch; simp at hsearch
        | some r =>
            rw [hl] at hsearch
            have hr : r = some res.path := hsearch
            rw [hr]
      have hib : inBounds g source = true := (find_position_sound hfind).1
      obtain ⟨s1, s2, s3, s4⟩ :=
        bfsLoop_sound g source res.target_position _ _ _ _
          (initialStateOK hib) hloop
      exact ⟨source, rfl, s1, s2, s3, s4, hcost, hsteps⟩

/-- Claim C1: every `PathResult` emitted by `bfs_pathfinding` carries a path
that starts at the source, ends at its target, and moves only by valid
(in-bounds, non-wall) horizontal neighbour steps on one floor or by
stair-to-stair floor changes at the identical (row, col). -/
theorem C1_bfs_paths_valid (g : Grid) (res : PathResult)
    (h : res ∈ bfs_pathfinding g) :
    ∃ source, find_position g 'S' = some source ∧
      res.path.head? = some source ∧
      res.path.getLast? = some res.target_position ∧
      List.Chain' (ValidStep g) res.path := by
  obtain ⟨source, h1, h2, h3, h4, _, _, _⟩ := bfs_result_sound g res h
  exact ⟨source, h1, h2, h3, h4⟩

/-- Claim C10: every path inside a `PathResult` emitted by `bfs_pathfinding`
visits each position at most once (its elements are pairwise distinct). -/
theorem C10_bfs_paths_nodup (g : Grid) (res : PathResult)
    (h : res ∈ bfs_pathfinding g) : res.path.Nodup := by
  obtain ⟨source, _, _, _, _, h5, _, _⟩ := bfs_result_sound g res h
  exact h5

/-- Claim C9: the per-target BFS loop terminates within `floors*rows*cols + 1`
dequeue steps — the visited set bounds the number of queue insertions by the
number of grid cells, so the loop never runs out of fuel beyond that bound. -/
theorem C9_bfs_terminates (g : Grid) (source target : Pos) (fuel : Nat)
    (hsrc : inBounds g source = true) (hfuel : gridSize g + 1 ≤ fuel) :
    bfsLoop g target fuel [(source, [source])] [source] ≠ none := by
  have hsize : 1 ≤ gridSize g := by
    rcases source with ⟨sf, sr, sc⟩
    simp only [inBounds, Bool.and_eq_true, decide_eq_true_eq] at hsrc
    have hf : 0 < g.floors := by omega
    have hr : 0 < g.rows := by omega
    have hc : 0 < g.cols := by omega
    have := Nat.mul_pos (Nat.mul_pos hf hr) hc
    unfold gridSize
    omega
  apply bfsLoop_total g source target fuel _ _ (initialStateOK hsrc)
  have h1 : ([(source, [source])] : List (Pos × List Pos)).length = 1 := by simp
  have h2 : ([source] : List Pos).length = 1 := by simp
  rw [h1, h2]
  omega

/-- Claim C4: the stored `energy_cost` of every `PathResult` produced by
`bfs_pathfinding`, and of every result returned by `optimize_energy_usage` on
cost-consistent inputs, equals `_calculate_energy_cost` of its stored path. -/
theorem C4_cost_consistent (g : Grid) :
    (∀ res ∈ bfs_pathfinding g,
        res.energy_cost = calculate_energy_cost res.path) ∧
    (∀ rs : List PathResult,
        (∀ r ∈ rs, r.energy_cost = calculate_energy_cost r.path) →
        ∀ o ∈ optimize_energy_usage g rs,
          o.energy_cost = calculate_energy_cost o.path) := by
  constructor
  · intro res h
    obtain ⟨source, _, _, _, _, _, h6, _⟩ := bfs_result_sound g res h
    exact h6
  · intro rs hcons o ho
    rcases List.mem_map.mp (by simpa [optimize_energy_usage] using ho) with
      ⟨r, hr, rfl⟩
    simp only [optimizeOne]
    by_cases hlt :
        calculate_energy_cost (optimize_path_turns g r.path) < r.energy_cost
    · rw [if_pos hlt]
    · rw [if_neg hlt]
      exact hcons r hr

/-- Claim C3: on cost-consistent `PathResult`s, `optimize_energy_usage` never
increases the energy of a path; it replaces path, cost and step count (and
records `energy_saved`) exactly when the simplified path's recomputed cost is
strictly lower than the stored one, and otherwise keeps the original record
with `energy_saved = 0`. -/
theorem C3_optimize_no_increase (g : Grid) (rs : List PathResult)
    (r : PathResult) (hr : r ∈ rs)
    (hcons : r.energy_cost = calculate_energy_cost r.path) :
    optimizeOne g r ∈ optimize_energy_usage g rs ∧
    calculate_energy_cost (optimizeOne g r).path ≤
      calculate_energy_cost r.path ∧
    (calculate_energy_cost (optimize_path_turns g r.path) < r.energy_cost →
      (optimizeOne g r).path = optimize_path_turns g r.path ∧
      (optimizeOne g r).energy_cost =
        calculate_energy_cost (optimize_path_turns g r.path) ∧
      (optimizeOne g r).steps = (optimize_path_turns g r.path).length ∧
      (optimizeOne g r).energy_saved =
        r.energy_cost - calculate_energy_cost (optimize_path_turns g r.path)) ∧
    (¬ calculate_energy_cost (optimize_path_turns g r.path) < r.energy_cost →
      (optimizeOne g r).path = r.path ∧
      (optimizeOne g r).energy_cost = r.energy_cost ∧
      (optimizeOne g r).steps = r.steps ∧
      (optimizeOne g r).energy_saved = 0) := by
  refine ⟨?_, ?_, ?_, ?_⟩
  · unfold optimize_energy_usage
    exact List.mem_map_of_mem (optimizeOne g) hr
  · simp only [optimizeOne]
    by_cases hlt :
        calculate_energy_cost (optimize_path_turns g r.path) < r.energy_cost
    · rw [if_pos hlt]
      rw [hcons] at hlt
      exact le_of_lt hlt
    · rw [if_neg hlt]
  · intro hlt
    simp only [optimizeOne]
    rw [if_pos hlt]
    exact ⟨rfl, rfl, rfl, rfl⟩
  · intro hlt
    simp only [optimizeOne]
    rw [if_neg hlt]
    exact ⟨rfl, rfl, rfl, rfl⟩

/-- Claim C7: `_can_go_direct` holds only between positions on the same floor
sharing a row or a column (never a diagonal), with every cell strictly between
them valid (in-bounds and not a wall); the simplifier can therefore neither
skip across a floor change nor introduce a diagonal shortcut. -/
theorem C7_can_go_direct_sound (g : Grid) (a b : Pos)
    (h : can_go_direct g a b = true) :
    a.1 = b.1 ∧ (a.2.1 = b.2.1 ∨ a.2.2 = b.2.2) ∧
      (betweenCells a b).all (fun q => is_valid_position g q) = true := by
  unfold can_go_direct at h
  by_cases h1 : a.1 ≠ b.1
  · rw [if_pos h1] at h
    exact absurd h (by simp)
  · rw [if_neg h1] at h
    push_neg at h1
    by_cases h2 : a.2.1 ≠ b.2.1 ∧ a.2.2 ≠ b.2.2
    · rw [if_pos h2] at h
      exact absurd h (by simp)
    · rw [if_neg h2] at h
      refine ⟨h1, ?_, ?_⟩
      · by_contra hcon
        push_neg at hcon
        exact h2 ⟨hcon.1, hcon.2⟩
      · unfold betweenCells
        by_cases h3 : a.2.1 = b.2.1
        · rw [if_pos h3]
          rw [if_pos h3] at h
          exact h
        · rw [if_neg h3]
          rw [if_neg h3] at h
          exact h

theorem searchTargets_skip (g : Grid) (source : Pos) :
    ∀ (ts : List Pos) (idx i : Nat) (t : Pos),
      ts[i]? = some t → bfsSearch g source t = none →
      ∀ res ∈ searchTargets g source idx ts, res.target_index ≠ idx + i := by
  intro ts
  induction ts with
  | nil =>
      intro idx i t hget
      simp at hget
  | cons t' ts ih =>
      intro idx i t hget hnone res hres
      match i with
      | 0 =>
          rw [List.getElem?_cons_zero] at hget
          have ht : t' = t := by simpa using hget
          subst ht
          rw [searchTargets, hnone] at hres
          have := (searchTargets_sound g source ts (idx + 1) res hres).2.2.2
          omega
      | i + 1 =>
          rw [List.getElem?_cons_succ] at hget
          cases hsearch : bfsSearch g source t' with
          | some path =>
              rw [searchTargets, hsearch] at hres
              rcases List.mem_cons.mp hres with rfl | hres
              · simp
              · have := ih (idx + 1) i t hget hnone res hres
                omega
          | none =>
              rw [searchTargets, hsearch] at hres
              have := ih (idx + 1) i t hget hnone res hres
              omega

theorem searchTargets_hit (g : Grid) (source : Pos) :
    ∀ (ts : List Pos) (idx j : Nat) (t : Pos) (path : List Pos),
      ts[j]? = some t → bfsSearch g source t = some path →
      ∃ res ∈ searchTargets g source idx ts, res.target_index = idx + j ∧
        res.target_position = t ∧ res.path = path := by
  intro ts
  induction ts with
  | nil =>
      intro idx j t path hget
      simp at hget
  | cons t' ts ih =>
      intro idx j t path hget hsome
      match j with
      | 0 =>
          rw [List.getElem?_cons_zero] at hget
          have ht : t' = t := by simpa using hget
          subst ht
          refine ⟨⟨idx, t', path, path.length, calculate_energy_cost path⟩,
            ?_, by simp, rfl, rfl⟩
          rw [searchTargets, hsome]
          exact List.mem_cons_self _ _
      | j + 1 =>
          rw [List.getElem?_cons_succ] at hget
          obtain ⟨res, hmem, h1, h2, h3⟩ :=
            ih (idx + 1) j t path hget hsome
          refine ⟨res, ?_, by omega, h2, h3⟩
          cases hsearch : bfsSearch g source t' with
          | some path' =>
              rw [searchTargets, hsearch]
              exact List.mem_cons_of_mem _ hmem
          | none =>
              rw [searchTargets, hsearch]
              exact hmem

/-- Claim C8: with no source or no targets `bfs_pathfinding` returns the empty
list; an unreachable target (exhausted search) contributes no `PathResult`
while every other reachable target still contributes its own. -/
theorem C8_missing_and_unreachable (g : Grid) :
    (find_position g 'S' = none → bfs_pathfinding g = []) ∧
    (find_all_positions g 'R' = [] → bfs_pathfinding g = []) ∧
    (∀ source, find_position g 'S' = some source →
      (∀ i t, (find_all_positions g 'R')[i]? = some t →
        bfsSearch g source t = none →
        ∀ res ∈ bfs_pathfinding g, res.target_index ≠ i) ∧
      (∀ j t path, (find_all_positions g 'R')[j]? = some t →
        bfsSearch g source t = some path →
        ∃ res ∈ bfs_pathfinding g, res.target_index = j ∧
          res.target_position = t ∧ res.path = path)) := by
  refine ⟨?_, ?_, ?_⟩
  · intro h
    unfold bfs_pathfinding
    rw [h]
  · intro h
    unfold bfs_pathfinding
    cases hfind : find_position g 'S' with
    | none => rfl
    | some source =>
        rw [h]
        rfl
  · intro source hfind
    have heq : bfs_pathfinding g =
        searchTargets g source 0 (find_all_positions g 'R') := by
      unfold bfs_pathfinding
      rw [hfind]
    constructor
    · intro i t hget hnone res hres
      rw [heq] at hres
      have := searchTargets_skip g source _ 0 i t hget hnone res hres
      omega
    · intro j t path hget hsome
      obtain ⟨res, hmem, h1, h2, h3⟩ :=
        searchTargets_hit g source _ 0 j t path hget hsome
      rw [← heq] at hmem
      exact ⟨res, hmem, by omega, h2, h3⟩

theorem energyScenario : calculate_energy_cost pathScenario = 11 / 5 := by
  norm_num [pathScenario, calculate_energy_cost, costAux, stepCost, moveCost,
    is_turn, dirVec, cost_base_pressure, cost_horizontal]

theorem bfsScenario : bfs_pathfinding gScenario = [resScenario] := by
  have hfind : find_position gScenario 'S' = some pSrc := by decide
  have htargets : find_all_positions gScenario 'R' = [pRoom] := by decide
  have hsearch : bfsSearch gScenario pSrc pRoom = some pathScenario := by
    decide
  simp only [bfs_pathfinding, hfind]
  rw [htargets, searchTargets, hsearch]
  show (⟨0, pRoom, pathScenario, pathScenario.length,
      calculate_energy_cost pathScenario⟩ : PathResult) ::
      searchTargets gScenario pSrc (0 + 1) [] = [resScenario]
  rw [energyScenario]
  rfl

theorem bfsWalled : bfs_pathfinding gWalled = [resWalled] := by
  have hfind : find_position gWalled 'S' = some pSrc := by decide
  have htargets : find_all_positions gWalled 'R' = [pRoom, pRoom2] := by
    decide
  have hsearch : bfsSearch gWalled pSrc pRoom = some pathScenario := by decide
  have hmiss : bfsSearch gWalled pSrc pRoom2 = none := by decide
  simp only [bfs_pathfinding, hfind]
  rw [htargets, searchTargets, hsearch]
  show (⟨0, pRoom, pathScenario, pathScenario.length,
      calculate_energy_cost pathScenario⟩ : PathResult) ::
      searchTargets gWalled pSrc (0 + 1) [pRoom2] = [resWalled]
  rw [searchTargets, hmiss, energyScenario]
  rfl

/-- Claim C5 is false as stated: on the scenario grid the emitted energy cost
is 11/5 = 2.2 (two consecutive pairs at 0.1 + 1.0 each), not the claimed
3×0.1 + 3×1.0 = 3.3. -/
theorem C5_counterexample :
    (bfs_pathfinding gScenario).map PathResult.energy_cost = [11 / 5] ∧
      (bfs_pathfinding gScenario).map PathResult.energy_cost ≠
        [(33 : ℚ) / 10] := by
  rw [bfsScenario]
  constructor
  · rfl
  · intro h
    have h2 : (11 : ℚ) / 5 = 33 / 10 := by
      have h1 : ([resScenario].map PathResult.energy_cost) =
          [(11 : ℚ) / 5] := rfl
      rw [h1] at h
      exact List.singleton_injective h
    norm_num at h2

/-- Claim C5 (amended): on the 1-floor 3×3 grid with source (0,0,0), room
(0,0,2) and walls across row 1, `bfs_pathfinding` finds exactly the path
[(0,0,0),(0,0,1),(0,0,2)] with steps = 3 and energy cost
2×0.1 + 2×1.0 = 2.2 (two consecutive pairs, no turns). -/
theorem C5_scenario_result :
    bfs_pathfinding gScenario = [⟨0, pRoom, pathScenario, 3, 11 / 5⟩] :=
  bfsScenario

theorem C1_witness :
    resScenario ∈ bfs_pathfinding gScenario ∧
    ∃ source, find_position gScenario 'S' = some source ∧
      resScenario.path.head? = some source ∧
      resScenario.path.getLast? = some resScenario.target_position ∧
      List.Chain' (ValidStep gScenario) resScenario.path := by
  have hmem : resScenario ∈ bfs_pathfinding gScenario := by
    rw [bfsScenario]
    exact List.mem_singleton.mpr rfl
  exact ⟨hmem, C1_bfs_paths_valid gScenario resScenario hmem⟩

theorem C10_witness :
    resScenario ∈ bfs_pathfinding gScenario ∧ resScenario.path.Nodup := by
  have hmem : resScenario ∈ bfs_pathfinding gScenario := by
    rw [bfsScenario]
    exact List.mem_singleton.mpr rfl
  exact ⟨hmem, C10_bfs_paths_nodup gScenario resScenario hmem⟩

theorem C9_witness :
    inBounds gScenario pSrc = true ∧ gridSize gScenario + 1 ≤ 10 ∧
      bfsLoop gScenario pRoom 10 [(pSrc, [pSrc])] [pSrc] ≠ none :=
  ⟨by decide, by decide,
    C9_bfs_terminates gScenario pSrc pRoom 10 (by decide) (by decide)⟩

theorem C4_witness :
    resScenario.energy_cost = calculate_energy_cost resScenario.path ∧
    (optimizeOne gScenario resScenario).energy_cost =
      calculate_energy_cost (optimizeOne gScenario resScenario).path := by
  have hmem : resScenario ∈ bfs_pathfinding gScenario := by
    rw [bfsScenario]
    exact List.mem_singleton.mpr rfl
  have hcons : ∀ r ∈ [resScenario],
      r.energy_cost = calculate_energy_cost r.path := by
    intro r hr
    rcases List.mem_singleton.mp hr with rfl
    exact (C4_cost_consistent gScenario).1 resScenario hmem
  have ho : optimizeOne gScenario resScenario ∈
      optimize_energy_usage gScenario [resScenario] := by
    unfold optimize_energy_usage
    exact List.mem_map_of_mem _ (List.mem_singleton.mpr rfl)
  exact ⟨(C4_cost_consistent gScenario).1 resScenario hmem,
    (C4_cost_consistent gScenario).2 [resScenario] hcons _ ho⟩

theorem C3_witness :
    resScenario ∈ [resScenario] ∧
    resScenario.energy_cost = calculate_energy_cost resScenario.path ∧
    calculate_energy_cost
        (optimizeOne gScenario resScenario).path ≤
      calculate_energy_cost resScenario.path := by
  have hmm : resScenario ∈ [resScenario] := List.mem_singleton.mpr rfl
  have hcons : resScenario.energy_cost =
      calculate_energy_cost resScenario.path := by
    show (11 : ℚ) / 5 = calculate_energy_cost pathScenario
    rw [energyScenario]
  exact ⟨hmm, hcons,
    (C3_optimize_no_increase gScenario [resScenario] resScenario
      hmm hcons).2.1⟩

theorem C7_witness :
    can_go_direct gScenario ((0, 2, 0) : Pos) ((0, 2, 2) : Pos) = true ∧
    (betweenCells ((0, 2, 0) : Pos) ((0, 2, 2) : Pos)).all
      (fun q => is_valid_position gScenario q) = true := by
  have h : can_go_direct gScenario ((0, 2, 0) : Pos) ((0, 2, 2) : Pos) =
      true := by
    decide
  exact ⟨h, (C7_can_go_direct_sound gScenario _ _ h).2.2⟩

theorem C8_witness :
    find_position gNoSource 'S' = none ∧ bfs_pathfinding gNoSource = [] ∧
    find_position gWalled 'S' = some pSrc ∧
    (find_all_positions gWalled 'R')[1]? = some pRoom2 ∧
    bfsSearch gWalled pSrc pRoom2 = none ∧
    resWalled ∈ bfs_pathfinding gWalled ∧ resWalled.target_index ≠ 1 := by
  have h1 : find_position gNoSource 'S' = none := by decide
  have h2 : find_position gWalled 'S' = some pSrc := by decide
  have h3 : (find_all_positions gWalled 'R')[1]? = some pRoom2 := by decide
  have h4 : bfsSearch gWalled pSrc pRoom2 = none := by decide
  have hmem : resWalled ∈ bfs_pathfinding gWalled := by
    rw [bfsWalled]
    exact List.mem_singleton.mpr rfl
  refine ⟨h1, (C8_missing_and_unreachable gNoSource).1 h1, h2, h3, h4,
    hmem, ?_⟩
  exact ((C8_missing_and_unreachable gWalled).2.2 pSrc h2).1 1 pRoom2 h3 h4
    resWalled hmem

theorem C2_witness :
    (([((0, 0, 0) : Pos)]).length < 2 ∧
      calculate_energy_cost [((0, 0, 0) : Pos)] = 0) ∧
    calculate_energy_cost pathScenario = specEnergyCost pathScenario :=
  ⟨⟨by decide, C2_energy_cost_formula.1 [((0, 0, 0) : Pos)] (by decide)⟩,
    C2_energy_cost_formula.2 pathScenario⟩
